import Mathlib

/-!
Shallow embedding of `src/buttonHandler.h` (KargJonas/button-handler).

The source is a polling-based button event dispatcher for GPIO pins:

* class `Button`: pin number, last observed state, two optional per-button
  callbacks (`pressHandler`, `releaseHandler`, raw function pointers) and a
  flag `hasHandlers` recording whether they were supplied.
* class `ButtonHandler`: a `std::vector<Button> buttons`, a
  `std::map<int,int> pinMap` from pin number to position in `buttons`,
  optional global callbacks taking the pin number, and a flag `hasHandlers`.

Callbacks are raw function pointers; in the embedding a callback is
represented by an abstract identity (a `Nat`), and an invocation of a
callback is recorded as an `Event` in a trace that each operation returns.
The hardware abstraction `digitalRead` becomes an explicit argument
`read : Nat → Bool` of `update` (true = `HIGH`).

`std::map<int,int>` is embedded as an association list with the semantics
of the two operations the source uses: assignment through `operator[]`
(insert-or-overwrite, `mapSet`) and read through `operator[]`
(insert-default-zero when the key is absent, `mapGet`).  An out-of-bounds
`std::vector` access in `getState` (undefined behavior in C++) is modelled
by `Option`: `none` means the read was out of bounds.
-/

/-- An observable callback invocation.

* `perPress pin id` / `perRelease pin id`: the per-button callback with
  identity `id` of a record for pin `pin` was invoked (niladic in the
  source; the pin tags which record fired).
* `anyPress id pin` / `anyRelease id pin`: the global callback with
  identity `id` was invoked with argument `pin`. -/
inductive Event where
  | perPress : Nat → Nat → Event
  | perRelease : Nat → Nat → Event
  | anyPress : Nat → Nat → Event
  | anyRelease : Nat → Nat → Event
deriving DecidableEq, Repr

/-- The pin a callback invocation happened on behalf of. -/
def Event.pin : Event → Nat
  | .perPress p _ => p
  | .perRelease p _ => p
  | .anyPress _ p => p
  | .anyRelease _ p => p

/-- Whether the event is an invocation of a global (manager-level) callback. -/
def Event.isGlobal : Event → Bool
  | .anyPress _ _ => true
  | .anyRelease _ _ => true
  | .perPress _ _ => false
  | .perRelease _ _ => false

/-- Whether the event is a press-side invocation (per-button or global). -/
def Event.isPress : Event → Bool
  | .perPress _ _ => true
  | .anyPress _ _ => true
  | .perRelease _ _ => false
  | .anyRelease _ _ => false

/-- Embedding of `class Button` (buttonHandler.h lines 12-49).
`pressHandler` / `releaseHandler` hold the identity of the stored function
pointer; for the constructor without handlers these pointers are left
uninitialized in the source and never read (guarded by `hasHandlers`), so
the embedding fixes them to `0`. -/
structure Button where
  pin : Nat
  state : Bool
  pressHandler : Nat
  releaseHandler : Nat
  hasHandlers : Bool
deriving DecidableEq, Repr

/-- `Button(byte _pin)`: construct without handlers (lines 25-29). -/
def Button.mkPlain (p : Nat) : Button :=
  { pin := p, state := false, pressHandler := 0, releaseHandler := 0, hasHandlers := false }

/-- `Button(byte, fn, fn)`: construct with handlers (lines 38-48). -/
def Button.mkWith (p pr rl : Nat) : Button :=
  { pin := p, state := false, pressHandler := pr, releaseHandler := rl, hasHandlers := true }

/-- `std::map` assignment `m[k] = v`: overwrite the entry for `k` if
present, otherwise insert one. -/
def mapSet : List (Nat × Nat) → Nat → Nat → List (Nat × Nat)
  | [], k, v => [(k, v)]
  | (k', v') :: rest, k, v =>
      if k' = k then (k, v) :: rest else (k', v') :: mapSet rest k v

/-- `std::map` read `m[k]` through `operator[]`: if `k` is absent, a
default-constructed value (`0` for `int`) is inserted and returned.
Returns the value and the possibly-grown map. -/
def mapGet (m : List (Nat × Nat)) (k : Nat) : Nat × List (Nat × Nat) :=
  match m.lookup k with
  | some v => (v, m)
  | none => (0, m ++ [(k, 0)])

/-- Embedding of `class ButtonHandler` (lines 55-174). -/
structure ButtonHandler where
  buttons : List Button
  pinMap : List (Nat × Nat)
  pressHandler : Nat
  releaseHandler : Nat
  hasHandlers : Bool
deriving Repr

/-- `ButtonHandler()`: default constructor, `hasHandlers(false)` (line 68);
the global function pointers are uninitialized and never read. -/
def ButtonHandler.init : ButtonHandler :=
  { buttons := [], pinMap := [], pressHandler := 0, releaseHandler := 0, hasHandlers := false }

/-- `ButtonHandler(fn, fn)`: constructor with global handlers (lines 80-81). -/
def ButtonHandler.initWith (pr rl : Nat) : ButtonHandler :=
  { buttons := [], pinMap := [], pressHandler := pr, releaseHandler := rl, hasHandlers := true }

/-- `registerButton(byte _pin)` (lines 88-92): append a handler-less record
and point `pinMap[_pin]` at its position `buttons.size() - 1`. -/
def ButtonHandler.registerButton (h : ButtonHandler) (pin : Nat) : ButtonHandler :=
  let buttons := h.buttons ++ [Button.mkPlain pin]
  { h with buttons := buttons, pinMap := mapSet h.pinMap pin (buttons.length - 1) }

/-- `registerButton(std::vector<byte> _pins)` (lines 99-104): for each pin in
order, call the single-pin overload, then (redundantly) reassign
`pinMap[_pin] = buttons.size() - 1`. -/
def ButtonHandler.registerButtons (h : ButtonHandler) (pins : List Nat) : ButtonHandler :=
  pins.foldl
    (fun acc p =>
      let acc2 := acc.registerButton p
      { acc2 with pinMap := mapSet acc2.pinMap p (acc2.buttons.length - 1) })
    h

/-- `registerButton(byte, fn, fn)` (lines 113-121): append a record with
handlers and point `pinMap[_pin]` at its position. -/
def ButtonHandler.registerButtonWith (h : ButtonHandler) (pin pr rl : Nat) : ButtonHandler :=
  let buttons := h.buttons ++ [Button.mkWith pin pr rl]
  { h with buttons := buttons, pinMap := mapSet h.pinMap pin (buttons.length - 1) }

/-- `registerHandlers(fn, fn)` (lines 135-139): set the global handlers and
mark them present. -/
def ButtonHandler.registerHandlers (h : ButtonHandler) (pr rl : Nat) : ButtonHandler :=
  { h with pressHandler := pr, releaseHandler := rl, hasHandlers := true }

/-- `getState(int _pin)` (lines 148-150): `return buttons[pinMap[_pin]].state`.
`pinMap[_pin]` uses `std::map::operator[]` (insert-default on a missing key,
a mutation), and `buttons[idx]` is an unchecked `std::vector` access, modelled
as `none` when out of bounds.  Returns the read result and the mutated
manager. -/
def ButtonHandler.getState (h : ButtonHandler) (pin : Nat) : Option Bool × ButtonHandler :=
  let r := mapGet h.pinMap pin
  ((h.buttons[r.1]?).map Button.state, { h with pinMap := r.2 })

/-- The body of the `update()` loop for one record (lines 158-171):
read the hardware level of the record's pin, and on a change store it and
fire, in order, the per-button callback (if `hasHandlers`) then the global
callback with the pin as argument (if the manager's `hasHandlers`).
Returns the updated record and its emitted trace. -/
def updateButton (read : Nat → Bool) (gp gr : Nat) (gh : Bool) (b : Button) :
    Button × List Event :=
  let newState := read b.pin
  if newState ≠ b.state then
    ({ b with state := newState },
      if newState then
        (if b.hasHandlers then [Event.perPress b.pin b.pressHandler] else []) ++
        (if gh then [Event.anyPress gp b.pin] else [])
      else
        (if b.hasHandlers then [Event.perRelease b.pin b.releaseHandler] else []) ++
        (if gh then [Event.anyRelease gr b.pin] else []))
  else (b, [])

/-- `update()` (lines 157-173): process every record in registration order;
each iteration touches only its own record, so the pass is the per-record
step mapped over `buttons`, with the traces concatenated in order. -/
def ButtonHandler.update (h : ButtonHandler) (read : Nat → Bool) :
    ButtonHandler × List Event :=
  ({ h with buttons := h.buttons.map (fun b => (updateButton read h.pressHandler h.releaseHandler h.hasHandlers b).1) },
   (h.buttons.map (fun b => (updateButton read h.pressHandler h.releaseHandler h.hasHandlers b).2)).flatten)

/-- A call to the public mutating API (update and the registration calls;
`getState` is the query of §4.3 and is kept separate). -/
inductive Op where
  | reg : Nat → Op
  | regList : List Nat → Op
  | regWith : Nat → Nat → Nat → Op
  | regHandlers : Nat → Nat → Op
  | upd : (Nat → Bool) → Op

/-- Whether an `Op` is an `update()` call. -/
def Op.isUpd : Op → Bool
  | .upd _ => true
  | _ => false

/-- Apply one API call to the manager (discarding the emitted trace). -/
def applyOp (h : ButtonHandler) : Op → ButtonHandler
  | .reg p => h.registerButton p
  | .regList ps => h.registerButtons ps
  | .regWith p pr rl => h.registerButtonWith p pr rl
  | .regHandlers pr rl => h.registerHandlers pr rl
  | .upd r => (h.update r).1

/-- Run a sequence of API calls from a given manager state. -/
def runOps (h : ButtonHandler) (ops : List Op) : ButtonHandler :=
  ops.foldl applyOp h

/-- The index invariant of §3: every entry of `pinMap` points at a position
in `buttons` holding a record with that entry's pin. -/
def IndexInv (h : ButtonHandler) : Prop :=
  ∀ e ∈ h.pinMap, (h.buttons[e.2]?).map Button.pin = some e.1

example : (ButtonHandler.init.registerButton 5).pinMap = [(5, 0)] := by decide
example :
    ((ButtonHandler.init.registerButtonWith 5 1 2).update (fun _ => true)).2 =
      [Event.perPress 5 1] := by decide
example :
    (((ButtonHandler.initWith 9 8).registerButton 5).update (fun _ => true)).2 =
      [Event.anyPress 9 5] := by decide
example : ((ButtonHandler.init.registerButton 5).getState 5).1 = some false := by decide
example : (ButtonHandler.init.getState 7).1 = none := by decide
example : (ButtonHandler.init.getState 7).2.pinMap = [(7, 0)] := by decide

/-! ### Association-list (std::map) lemmas -/

theorem lookup_cons_self (k v₀ : Nat) (rest : List (Nat × Nat)) :
    List.lookup k ((k, v₀) :: rest) = some v₀ := by
  rw [List.lookup, beq_self_eq_true]

theorem lookup_cons_ne {k k₀ : Nat} (v₀ : Nat) (rest : List (Nat × Nat)) (hk : k ≠ k₀) :
    List.lookup k ((k₀, v₀) :: rest) = List.lookup k rest := by
  rw [List.lookup, beq_eq_false_iff_ne.mpr hk]

theorem lookup_mem : ∀ (m : List (Nat × Nat)) (k v : Nat),
    m.lookup k = some v → (k, v) ∈ m := by
  intro m
  induction m with
  | nil => intro k v h; simp [List.lookup] at h
  | cons e rest ih =>
    intro k v h
    obtain ⟨k₀, v₀⟩ := e
    by_cases hk : k = k₀
    · subst hk
      rw [lookup_cons_self] at h
      cases h
      exact List.mem_cons_self _ _
    · rw [lookup_cons_ne _ _ hk] at h
      exact List.mem_cons_of_mem _ (ih k v h)

theorem mapSet_lookup (m : List (Nat × Nat)) (k v k' : Nat) :
    (mapSet m k v).lookup k' = if k' = k then some v else m.lookup k' := by
  induction m with
  | nil =>
    by_cases hk : k' = k
    · subst hk; simp [mapSet, lookup_cons_self]
    · simp only [mapSet]
      rw [lookup_cons_ne _ _ hk, if_neg hk]
  | cons e rest ih =>
    obtain ⟨k₀, v₀⟩ := e
    simp only [mapSet]
    by_cases h0 : k₀ = k
    · subst h0
      rw [if_pos rfl]
      by_cases hk : k' = k₀
      · subst hk; simp [lookup_cons_self]
      · simp [hk, lookup_cons_ne _ _ hk]
    · rw [if_neg h0]
      by_cases hk : k' = k₀
      · subst hk
        have hkk : k' ≠ k := fun hc => h0 (hc ▸ rfl)
        simp [lookup_cons_self, hkk]
      · rw [lookup_cons_ne _ _ hk, lookup_cons_ne _ _ hk, ih]

theorem mem_mapSet (m : List (Nat × Nat)) (k v : Nat) :
    ∀ e ∈ mapSet m k v, e = (k, v) ∨ e ∈ m := by
  induction m with
  | nil => intro e he; simp [mapSet] at he; exact Or.inl he
  | cons e₀ rest ih =>
    intro e he
    obtain ⟨k₀, v₀⟩ := e₀
    simp only [mapSet] at he
    by_cases h0 : k₀ = k
    · rw [if_pos h0] at he
      rcases List.mem_cons.mp he with h | h
      · exact Or.inl h
      · exact Or.inr (List.mem_cons_of_mem _ h)
    · rw [if_neg h0] at he
      rcases List.mem_cons.mp he with h | h
      · exact Or.inr (h ▸ List.mem_cons_self _ _)
      · rcases ih e h with h' | h'
        · exact Or.inl h'
        · exact Or.inr (List.mem_cons_of_mem _ h')

theorem mapSet_mapSet_same (m : List (Nat × Nat)) (k v : Nat) :
    mapSet (mapSet m k v) k v = mapSet m k v := by
  induction m with
  | nil => simp [mapSet]
  | cons e rest ih =>
    obtain ⟨k₀, v₀⟩ := e
    by_cases h0 : k₀ = k
    · simp [mapSet, h0]
    · simp [mapSet, h0, ih]

theorem mapGet_of_lookup {m : List (Nat × Nat)} {k v : Nat}
    (h : m.lookup k = some v) : mapGet m k = (v, m) := by
  simp [mapGet, h]

theorem mapGet_of_none {m : List (Nat × Nat)} {k : Nat}
    (h : m.lookup k = none) : mapGet m k = (0, m ++ [(k, 0)]) := by
  simp [mapGet, h]

/-! ### Per-record step lemmas -/

/-- The events the record at hand would emit on a change, written out. -/
def transitionEvents (gp gr : Nat) (gh : Bool) (b : Button) (newState : Bool) : List Event :=
  if newState then
    (if b.hasHandlers then [Event.perPress b.pin b.pressHandler] else []) ++
    (if gh then [Event.anyPress gp b.pin] else [])
  else
    (if b.hasHandlers then [Event.perRelease b.pin b.releaseHandler] else []) ++
    (if gh then [Event.anyRelease gr b.pin] else [])

theorem updateButton_of_eq {read : Nat → Bool} {gp gr : Nat} {gh : Bool} {b : Button}
    (hs : read b.pin = b.state) : updateButton read gp gr gh b = (b, []) := by
  simp [updateButton, hs]

theorem updateButton_of_ne {read : Nat → Bool} {gp gr : Nat} {gh : Bool} {b : Button}
    (hs : read b.pin ≠ b.state) :
    updateButton read gp gr gh b =
      ({ b with state := read b.pin }, transitionEvents gp gr gh b (read b.pin)) := by
  simp [updateButton, transitionEvents, hs]

theorem updateButton_fst (read : Nat → Bool) (gp gr : Nat) (gh : Bool) (b : Button) :
    (updateButton read gp gr gh b).1 = { b with state := read b.pin } := by
  by_cases hs : read b.pin = b.state
  · rw [updateButton_of_eq hs, hs]
  · rw [updateButton_of_ne hs]

theorem transitionEvents_pin {gp gr : Nat} {gh : Bool} {b : Button} {s : Bool} :
    ∀ e ∈ transitionEvents gp gr gh b s, e.pin = b.pin := by
  intro e he
  simp only [transitionEvents] at he
  cases s <;> cases hh : b.hasHandlers <;> cases hg : gh <;>
    simp [hh, hg] at he <;>
    first
      | (rw [he]; rfl)
      | (rcases he with he | he <;> rw [he] <;> rfl)

theorem updateButton_events_pin {read : Nat → Bool} {gp gr : Nat} {gh : Bool} {b : Button} :
    ∀ e ∈ (updateButton read gp gr gh b).2, e.pin = b.pin := by
  intro e he
  by_cases hs : read b.pin = b.state
  · rw [updateButton_of_eq hs] at he
    simp at he
  · rw [updateButton_of_ne hs] at he
    exact transitionEvents_pin e he

/-! ### update() lemmas -/

theorem update_fst_pinMap (h : ButtonHandler) (read : Nat → Bool) :
    ((h.update read).1).pinMap = h.pinMap := rfl

theorem update_fst_globals (h : ButtonHandler) (read : Nat → Bool) :
    ((h.update read).1).pressHandler = h.pressHandler ∧
    ((h.update read).1).releaseHandler = h.releaseHandler ∧
    ((h.update read).1).hasHandlers = h.hasHandlers :=
  ⟨rfl, rfl, rfl⟩

theorem update_fst_buttons_getElem (h : ButtonHandler) (read : Nat → Bool) (i : Nat) :
    ((h.update read).1).buttons[i]? =
      (h.buttons[i]?).map (fun b => { b with state := read b.pin }) := by
  show (h.buttons.map _)[i]? = _
  rw [List.getElem?_map]
  cases hb : h.buttons[i]? with
  | none => rfl
  | some b => simp [updateButton_fst]

theorem update_snd_eq (h : ButtonHandler) (read : Nat → Bool) :
    (h.update read).2 =
      (h.buttons.map
        (fun b => (updateButton read h.pressHandler h.releaseHandler h.hasHandlers b).2)).flatten :=
  rfl

theorem update_mem_snd {h : ButtonHandler} {read : Nat → Bool} {e : Event} :
    e ∈ (h.update read).2 ↔
      ∃ b ∈ h.buttons,
        e ∈ (updateButton read h.pressHandler h.releaseHandler h.hasHandlers b).2 := by
  rw [update_snd_eq]
  simp [List.mem_flatten]

theorem update_trace_decomp (h : ButtonHandler) (read : Nat → Bool) (i : Nat) (b : Button)
    (hb : h.buttons[i]? = some b) :
    (h.update read).2 =
      ((h.buttons.take i).map
        (fun c => (updateButton read h.pressHandler h.releaseHandler h.hasHandlers c).2)).flatten
      ++ (updateButton read h.pressHandler h.releaseHandler h.hasHandlers b).2
      ++ ((h.buttons.drop (i + 1)).map
        (fun c => (updateButton read h.pressHandler h.releaseHandler h.hasHandlers c).2)).flatten := by
  obtain ⟨hlt, hget⟩ := List.getElem?_eq_some.mp hb
  have hsplit : h.buttons = h.buttons.take i ++ b :: h.buttons.drop (i + 1) := by
    conv_lhs => rw [← List.take_append_drop i h.buttons]
    rw [List.drop_eq_getElem_cons hlt, hget]
  rw [update_snd_eq]
  conv_lhs => rw [hsplit]
  rw [List.map_append, List.flatten_append, List.map_cons, List.flatten_cons]
  rw [List.append_assoc]

/-! ### getState lemmas -/

theorem getState_of_lookup {h : ButtonHandler} {p j : Nat}
    (hj : h.pinMap.lookup p = some j) :
    h.getState p = ((h.buttons[j]?).map Button.state, h) := by
  simp only [ButtonHandler.getState, mapGet_of_lookup hj]

theorem getState_of_none {h : ButtonHandler} {p : Nat}
    (hp : h.pinMap.lookup p = none) :
    h.getState p =
      ((h.buttons[0]?).map Button.state, { h with pinMap := h.pinMap ++ [(p, 0)] }) := by
  simp only [ButtonHandler.getState, mapGet_of_none hp]

/-! ### Index invariant -/

theorem indexInv_lookup {h : ButtonHandler} {p j : Nat}
    (hI : IndexInv h) (hj : h.pinMap.lookup p = some j) :
    ∃ b, h.buttons[j]? = some b ∧ b.pin = p := by
  have hmem := lookup_mem _ _ _ hj
  have hpt := hI (p, j) hmem
  cases hb : h.buttons[j]? with
  | none => rw [hb] at hpt; simp at hpt
  | some b =>
    rw [hb] at hpt
    simp only [Option.map] at hpt
    cases hpt
    exact ⟨b, rfl, rfl⟩

theorem indexInv_appendRecord {h : ButtonHandler} (hI : IndexInv h) (b : Button) :
    IndexInv { h with buttons := h.buttons ++ [b],
                      pinMap := mapSet h.pinMap b.pin ((h.buttons ++ [b]).length - 1) } := by
  intro e he
  simp only at he
  have hlen : (h.buttons ++ [b]).length - 1 = h.buttons.length := by
    simp
  rw [hlen] at he
  rcases mem_mapSet _ _ _ e he with heq | hmem
  · subst heq
    simp only
    rw [List.getElem?_append_right (Nat.le_refl _)]
    simp
  · have hpt := hI e hmem
    simp only
    cases hb : h.buttons[e.2]? with
    | none => rw [hb] at hpt; simp at hpt
    | some c =>
      have hlt : e.2 < h.buttons.length := (List.getElem?_eq_some.mp hb).1
      rw [List.getElem?_append_left hlt, hb]
      rw [hb] at hpt
      exact hpt

theorem indexInv_registerButton {h : ButtonHandler} (hI : IndexInv h) (p : Nat) :
    IndexInv (h.registerButton p) :=
  indexInv_appendRecord hI (Button.mkPlain p)

theorem indexInv_registerButtonWith {h : ButtonHandler} (hI : IndexInv h) (p pr rl : Nat) :
    IndexInv (h.registerButtonWith p pr rl) :=
  indexInv_appendRecord hI (Button.mkWith p pr rl)

theorem indexInv_registerHandlers {h : ButtonHandler} (hI : IndexInv h) (pr rl : Nat) :
    IndexInv (h.registerHandlers pr rl) :=
  fun e he => hI e he

theorem indexInv_update {h : ButtonHandler} (hI : IndexInv h) (read : Nat → Bool) :
    IndexInv ((h.update read).1) := by
  intro e he
  rw [update_fst_pinMap] at he
  have hpt := hI e he
  rw [update_fst_buttons_getElem]
  cases hb : h.buttons[e.2]? with
  | none => rw [hb] at hpt; simp at hpt
  | some c =>
    rw [hb] at hpt
    simpa using hpt

/-! ### The list overload collapses to iterated single registration -/

theorem registerButtons_step_eq (h : ButtonHandler) (p : Nat) :
    ({ h.registerButton p with
        pinMap := mapSet (h.registerButton p).pinMap p ((h.registerButton p).buttons.length - 1) }
      : ButtonHandler) = h.registerButton p := by
  have h1 : (h.registerButton p).buttons.length - 1 = h.buttons.length := by
    simp [ButtonHandler.registerButton]
  have h2 : (h.registerButton p).pinMap = mapSet h.pinMap p (h.buttons.length) := by
    simp [ButtonHandler.registerButton]
  rw [h1, h2, mapSet_mapSet_same, ← h2]

theorem registerButtons_eq (h : ButtonHandler) (pins : List Nat) :
    h.registerButtons pins = pins.foldl ButtonHandler.registerButton h := by
  induction pins generalizing h with
  | nil => rfl
  | cons p rest ih =>
    calc h.registerButtons (p :: rest)
        = ButtonHandler.registerButtons
            ({ h.registerButton p with
                pinMap := mapSet (h.registerButton p).pinMap p
                  ((h.registerButton p).buttons.length - 1) }) rest := rfl
      _ = ButtonHandler.registerButtons (h.registerButton p) rest := by
            rw [registerButtons_step_eq]
      _ = List.foldl ButtonHandler.registerButton (h.registerButton p) rest := ih _
      _ = List.foldl ButtonHandler.registerButton h (p :: rest) := rfl

theorem indexInv_foldl_registerButton {h : ButtonHandler} (hI : IndexInv h)
    (pins : List Nat) : IndexInv (pins.foldl ButtonHandler.registerButton h) := by
  induction pins generalizing h with
  | nil => exact hI
  | cons p rest ih => exact ih (indexInv_registerButton hI p)

theorem indexInv_applyOp {h : ButtonHandler} (hI : IndexInv h) (o : Op) :
    IndexInv (applyOp h o) := by
  cases o with
  | reg p => exact indexInv_registerButton hI p
  | regList ps =>
    show IndexInv (h.registerButtons ps)
    rw [registerButtons_eq]
    exact indexInv_foldl_registerButton hI ps
  | regWith p pr rl => exact indexInv_registerButtonWith hI p pr rl
  | regHandlers pr rl => exact indexInv_registerHandlers hI pr rl
  | upd r => exact indexInv_update hI r

theorem indexInv_runOps {h : ButtonHandler} (hI : IndexInv h) (ops : List Op) :
    IndexInv (runOps h ops) := by
  induction ops generalizing h with
  | nil => exact hI
  | cons o rest ih => exact ih (indexInv_applyOp hI o)

theorem indexInv_init : IndexInv ButtonHandler.init := by
  intro e he
  simp [ButtonHandler.init] at he

theorem indexInv_initWith (pr rl : Nat) : IndexInv (ButtonHandler.initWith pr rl) := by
  intro e he
  simp [ButtonHandler.initWith] at he

/-! ### Before the first update every stored state is false -/

/-- Every record of the manager still holds its construction-time state. -/
def statesFalse (h : ButtonHandler) : Prop :=
  ∀ b ∈ h.buttons, b.state = false

theorem statesFalse_registerButton {h : ButtonHandler} (hs : statesFalse h) (p : Nat) :
    statesFalse (h.registerButton p) := by
  intro b hb
  rcases List.mem_append.mp hb with hmem | hmem
  · exact hs b hmem
  · rcases List.mem_singleton.mp hmem with rfl
    rfl

theorem statesFalse_registerButtonWith {h : ButtonHandler} (hs : statesFalse h)
    (p pr rl : Nat) : statesFalse (h.registerButtonWith p pr rl) := by
  intro b hb
  rcases List.mem_append.mp hb with hmem | hmem
  · exact hs b hmem
  · rcases List.mem_singleton.mp hmem with rfl
    rfl

theorem statesFalse_foldl_registerButton {h : ButtonHandler} (hs : statesFalse h)
    (pins : List Nat) : statesFalse (pins.foldl ButtonHandler.registerButton h) := by
  induction pins generalizing h with
  | nil => exact hs
  | cons p rest ih => exact ih (statesFalse_registerButton hs p)

theorem statesFalse_applyOp {h : ButtonHandler} (hs : statesFalse h) {o : Op}
    (ho : o.isUpd = false) : statesFalse (applyOp h o) := by
  cases o with
  | reg p => exact statesFalse_registerButton hs p
  | regList ps =>
    show statesFalse (h.registerButtons ps)
    rw [registerButtons_eq]
    exact statesFalse_foldl_registerButton hs ps
  | regWith p pr rl => exact statesFalse_registerButtonWith hs p pr rl
  | regHandlers pr rl => exact hs
  | upd r => exact absurd ho (by simp [Op.isUpd])

theorem statesFalse_runOps {h : ButtonHandler} (hs : statesFalse h) {ops : List Op}
    (hops : ∀ o ∈ ops, o.isUpd = false) : statesFalse (runOps h ops) := by
  induction ops generalizing h with
  | nil => exact hs
  | cons o rest ih =>
    exact ih (statesFalse_applyOp hs (hops o (List.mem_cons_self _ _)))
      (fun o' ho' => hops o' (List.mem_cons_of_mem _ ho'))

/-! ### Relational presentation of the polling pass

`update()` presented as a derivation: one rule per loop iteration.  Used to
state determinism as functionality of the relation. -/

/-- One pass of the `update()` loop over a record list: relates the input
record list to the output record list and the emitted trace. -/
inductive ProcRel (read : Nat → Bool) (gp gr : Nat) (gh : Bool) :
    List Button → List Button → List Event → Prop where
  | nil : ProcRel read gp gr gh [] [] []
  | cons (b : Button) (bs bs' : List Button) (evs : List Event) :
      ProcRel read gp gr gh bs bs' evs →
      ProcRel read gp gr gh (b :: bs)
        ((updateButton read gp gr gh b).1 :: bs')
        ((updateButton read gp gr gh b).2 ++ evs)

/-- One `update()` call as a relation between manager states. -/
inductive UpdateRel (read : Nat → Bool) : ButtonHandler → ButtonHandler → List Event → Prop where
  | mk (h : ButtonHandler) (bs' : List Button) (evs : List Event) :
      ProcRel read h.pressHandler h.releaseHandler h.hasHandlers h.buttons bs' evs →
      UpdateRel read h { h with buttons := bs' } evs

/-- A sequence of `update()` calls, one per element of the hardware input
sequence, with the traces concatenated. -/
inductive RunRel : ButtonHandler → List (Nat → Bool) → ButtonHandler → List Event → Prop where
  | nil (h : ButtonHandler) : RunRel h [] h []
  | cons (r : Nat → Bool) (rs : List (Nat → Bool)) (h h' h'' : ButtonHandler)
      (e es : List Event) :
      UpdateRel r h h' e → RunRel h' rs h'' es → RunRel h (r :: rs) h'' (e ++ es)

theorem procRel_det {read : Nat → Bool} {gp gr : Nat} {gh : Bool}
    {bs bs₁ bs₂ : List Button} {e₁ e₂ : List Event}
    (h₁ : ProcRel read gp gr gh bs bs₁ e₁) (h₂ : ProcRel read gp gr gh bs bs₂ e₂) :
    bs₁ = bs₂ ∧ e₁ = e₂ := by
  induction h₁ generalizing bs₂ e₂ with
  | nil => cases h₂; exact ⟨rfl, rfl⟩
  | cons b bs bs' evs hrec ih =>
    cases h₂ with
    | cons _ _ bs₂' evs₂ hrec₂ =>
      obtain ⟨hb, he⟩ := ih hrec₂
      exact ⟨by rw [hb], by rw [he]⟩

theorem updateRel_det {read : Nat → Bool} {h h₁ h₂ : ButtonHandler} {e₁ e₂ : List Event}
    (d₁ : UpdateRel read h h₁ e₁) (d₂ : UpdateRel read h h₂ e₂) :
    h₁ = h₂ ∧ e₁ = e₂ := by
  cases d₁ with
  | mk _ bs₁ p₁ =>
    cases d₂ with
    | mk _ bs₂ p₂ =>
      obtain ⟨hb, he⟩ := procRel_det p₁ p₂
      subst hb
      exact ⟨rfl, he⟩

theorem runRel_det {h : ButtonHandler} {rs : List (Nat → Bool)}
    {h₁ h₂ : ButtonHandler} {e₁ e₂ : List Event}
    (d₁ : RunRel h rs h₁ e₁) (d₂ : RunRel h rs h₂ e₂) :
    h₁ = h₂ ∧ e₁ = e₂ := by
  induction d₁ generalizing h₂ e₂ with
  | nil => cases d₂; exact ⟨rfl, rfl⟩
  | cons r rs h h' h'' e es hu hrun ih =>
    cases d₂ with
    | cons _ _ _ h₂' _ e₂' es₂ hu₂ hrun₂ =>
      obtain ⟨hh, he⟩ := updateRel_det hu hu₂
      subst hh
      obtain ⟨hh', he'⟩ := ih hrun₂
      exact ⟨hh', by rw [he, he']⟩

theorem procRel_of_run (read : Nat → Bool) (gp gr : Nat) (gh : Bool)
    (bs : List Button) :
    ProcRel read gp gr gh bs
      (bs.map (fun b => (updateButton read gp gr gh b).1))
      ((bs.map (fun b => (updateButton read gp gr gh b).2)).flatten) := by
  induction bs with
  | nil => exact ProcRel.nil
  | cons b rest ih =>
    rw [List.map_cons, List.map_cons, List.flatten_cons]
    exact ProcRel.cons b rest _ _ ih

theorem updateRel_of_run (read : Nat → Bool) (h : ButtonHandler) :
    UpdateRel read h (h.update read).1 (h.update read).2 :=
  UpdateRel.mk h _ _ (procRel_of_run read h.pressHandler h.releaseHandler h.hasHandlers h.buttons)

/-! ### Remaining helper lemmas -/

theorem lookup_append_of_none {m : List (Nat × Nat)} {k : Nat}
    (h : m.lookup k = none) (l : List (Nat × Nat)) :
    (m ++ l).lookup k = l.lookup k := by
  induction m with
  | nil => rfl
  | cons e rest ih =>
    obtain ⟨k₀, v₀⟩ := e
    by_cases hk : k = k₀
    · subst hk
      rw [lookup_cons_self] at h
      cases h
    · rw [lookup_cons_ne _ _ hk] at h
      rw [List.cons_append, lookup_cons_ne _ _ hk]
      exact ih h

theorem transitionEvents_isPress {gp gr : Nat} {gh : Bool} {b : Button} {s : Bool} :
    ∀ e ∈ transitionEvents gp gr gh b s, e.isPress = s := by
  intro e he
  simp only [transitionEvents] at he
  cases s <;> cases hh : b.hasHandlers <;> cases hg : gh <;>
    simp [hh, hg] at he <;>
    first
      | (rw [he]; rfl)
      | (rcases he with he | he <;> rw [he] <;> rfl)

theorem transitionEvents_flags {gp gr : Nat} {gh : Bool} {b : Button} {s : Bool} :
    ∀ e ∈ transitionEvents gp gr gh b s,
      (e.isGlobal = true ∧ gh = true) ∨ (e.isGlobal = false ∧ b.hasHandlers = true) := by
  intro e he
  simp only [transitionEvents] at he
  cases s <;> cases hh : b.hasHandlers <;> cases hg : gh <;>
    simp [hh, hg] at he
  all_goals first
    | (rw [he]; simp [Event.isGlobal, hg, hh])
    | (rcases he with he | he <;> rw [he] <;> simp [Event.isGlobal, hg, hh])

theorem transitionEvents_per_mem {gp gr : Nat} {gh : Bool} {b : Button}
    (hh : b.hasHandlers = true) (s : Bool) :
    (if s then Event.perPress b.pin b.pressHandler
     else Event.perRelease b.pin b.releaseHandler) ∈ transitionEvents gp gr gh b s := by
  cases s <;> simp [transitionEvents, hh]

/-! ## Claims -/

/-- C8: the list-registration overload `registerButton(pins)` applied to an
ordered sequence of pin identifiers leaves the manager in exactly the same
state as calling the single-pin `registerButton(pin)` on each element of the
sequence in order. -/
theorem spec_C8 (h : ButtonHandler) (pins : List Nat) :
    h.registerButtons pins = pins.foldl ButtonHandler.registerButton h :=
  registerButtons_eq h pins

/-- C4: the index invariant — every pin identifier present in the
pin-to-position map points at a record with that pin — holds after every
sequence of `registerButton` (all overloads), `registerHandlers` and
`update()` calls starting from a fresh manager (either constructor). -/
theorem spec_C4 (ops : List Op) (h0 : ButtonHandler)
    (hfresh : h0 = ButtonHandler.init ∨ ∃ pr rl, h0 = ButtonHandler.initWith pr rl) :
    IndexInv (runOps h0 ops) := by
  rcases hfresh with rfl | ⟨pr, rl, rfl⟩
  · exact indexInv_runOps indexInv_init ops
  · exact indexInv_runOps (indexInv_initWith pr rl) ops

/-- Witness for C4 at a concrete operation sequence. -/
theorem spec_C4_witness :
    IndexInv (runOps ButtonHandler.init
      [Op.reg 3, Op.regList [2, 3], Op.regHandlers 1 2]) :=
  spec_C4 [Op.reg 3, Op.regList [2, 3], Op.regHandlers 1 2] ButtonHandler.init (Or.inl rfl)

/-- C3: after any sequence of registration calls (no `update()`) from a fresh
manager, `getState` of any registered pin returns `false`. -/
theorem spec_C3 (ops : List Op) (h0 : ButtonHandler)
    (hfresh : h0 = ButtonHandler.init ∨ ∃ pr rl, h0 = ButtonHandler.initWith pr rl)
    (hops : ∀ o ∈ ops, o.isUpd = false)
    (p j : Nat) (hreg : (runOps h0 ops).pinMap.lookup p = some j) :
    ((runOps h0 ops).getState p).1 = some false := by
  have hI : IndexInv (runOps h0 ops) := by
    rcases hfresh with rfl | ⟨pr, rl, rfl⟩
    · exact indexInv_runOps indexInv_init ops
    · exact indexInv_runOps (indexInv_initWith pr rl) ops
  have hz : statesFalse h0 := by
    rcases hfresh with rfl | ⟨pr, rl, rfl⟩
    · intro b hb; simp [ButtonHandler.init] at hb
    · intro b hb; simp [ButtonHandler.initWith] at hb
  have hs : statesFalse (runOps h0 ops) := statesFalse_runOps hz hops
  obtain ⟨b, hb, hpin⟩ := indexInv_lookup hI hreg
  rw [getState_of_lookup hreg, hb]
  have hmem := List.getElem?_mem hb
  simp [hs b hmem]

/-- Witness for C3 at a concrete registration sequence. -/
theorem spec_C3_witness :
    ((runOps ButtonHandler.init [Op.reg 5, Op.regWith 6 1 2]).getState 5).1 = some false :=
  spec_C3 [Op.reg 5, Op.regWith 6 1 2] ButtonHandler.init (Or.inl rfl) (by decide)
    5 0 (by decide)

/-- C10: calling `getState` on a never-registered pin inserts an entry
binding that pin to position `0` into the pin-to-position map (a mutation
breaking the index invariant for that pin whenever the first record does not
happen to carry it), and returns the first-registered record's state when
the record sequence is non-empty, or performs an out-of-bounds access
(modelled as `none`) on the empty sequence. -/
theorem spec_C10 (h : ButtonHandler) (p : Nat) (hnr : h.pinMap.lookup p = none) :
    (h.getState p).2.pinMap = h.pinMap ++ [(p, 0)] ∧
    (h.getState p).2.pinMap.lookup p = some 0 ∧
    (h.getState p).1 = (h.buttons[0]?).map Button.state ∧
    ((h.buttons[0]?).map Button.pin ≠ some p → ¬ IndexInv (h.getState p).2) := by
  rw [getState_of_none hnr]
  refine ⟨rfl, ?_, rfl, ?_⟩
  · show List.lookup p (h.pinMap ++ [(p, 0)]) = some 0
    rw [lookup_append_of_none hnr, lookup_cons_self]
  · intro hne hI
    have hmem : (p, 0) ∈ h.pinMap ++ [(p, 0)] :=
      List.mem_append.mpr (Or.inr (List.mem_singleton.mpr rfl))
    exact hne (hI (p, 0) hmem)

/-- Witness for C10 on the empty manager: the map gains the entry and the
record read is out of bounds. -/
theorem spec_C10_witness :
    (ButtonHandler.init.getState 9).2.pinMap = ButtonHandler.init.pinMap ++ [(9, 0)] ∧
    (ButtonHandler.init.getState 9).2.pinMap.lookup 9 = some 0 ∧
    (ButtonHandler.init.getState 9).1 = (ButtonHandler.init.buttons[0]?).map Button.state ∧
    ((ButtonHandler.init.buttons[0]?).map Button.pin ≠ some 9 →
      ¬ IndexInv (ButtonHandler.init.getState 9).2) :=
  spec_C10 ButtonHandler.init 9 rfl

/-- C2: for a registered pin P, if the hardware level read for P during an
`update()` call equals P's stored state (the state of every record carrying
P, which is what "P's stored state" presupposes), then the call fires no
callback on behalf of P — neither per-button nor global — and `getState(P)`
is unchanged by the call. -/
theorem spec_C2 (h : ButtonHandler) (read : Nat → Bool) (p j : Nat)
    (hI : IndexInv h) (hreg : h.pinMap.lookup p = some j)
    (hall : ∀ b ∈ h.buttons, b.pin = p → b.state = read p) :
    (∀ e ∈ (h.update read).2, Event.pin e ≠ p) ∧
    ((h.update read).1.getState p).1 = (h.getState p).1 := by
  constructor
  · intro e he
    obtain ⟨b, hbmem, hbe⟩ := update_mem_snd.mp he
    by_cases hbp : b.pin = p
    · have hst : read b.pin = b.state := by
        rw [hbp, hall b hbmem hbp]
      rw [updateButton_of_eq hst] at hbe
      simp at hbe
    · rw [updateButton_events_pin e hbe]
      exact hbp
  · have hreg2 : ((h.update read).1).pinMap.lookup p = some j := by
      rw [update_fst_pinMap]; exact hreg
    rw [getState_of_lookup hreg, getState_of_lookup hreg2]
    obtain ⟨c, hc, hcpin⟩ := indexInv_lookup hI hreg
    rw [update_fst_buttons_getElem, hc]
    have hcmem := List.getElem?_mem hc
    simp [hcpin, hall c hcmem hcpin]

/-- Witness for C2: with pin 4 registered and the hardware level equal to
the stored state, `getState(4)` is unchanged by `update()`. -/
theorem spec_C2_witness :
    (((ButtonHandler.init.registerButton 4).update (fun _ => false)).1.getState 4).1 =
      ((ButtonHandler.init.registerButton 4).getState 4).1 :=
  (spec_C2 (ButtonHandler.init.registerButton 4) (fun _ => false) 4 0
    (by unfold IndexInv; decide) (by decide) (by decide)).2

/-- C9: during `update()` a per-button callback fires only when the record's
handler-presence flag is set and a global callback fires only when the
manager's flag is set; when a flag is false the transition is still
processed — every record's stored state is overwritten with the level just
read — with the callback silently skipped. -/
theorem spec_C9 (h : ButtonHandler) (read : Nat → Bool) :
    (h.hasHandlers = false → ∀ e ∈ (h.update read).2, Event.isGlobal e = false) ∧
    (∀ e ∈ (h.update read).2, Event.isGlobal e = false →
      ∃ b ∈ h.buttons, b.pin = Event.pin e ∧ b.hasHandlers = true) ∧
    (∀ (i : Nat) (b : Button), h.buttons[i]? = some b →
      ((h.update read).1).buttons[i]? = some { b with state := read b.pin }) := by
  refine ⟨?_, ?_, ?_⟩
  · intro hgh e he
    obtain ⟨b, hbmem, hbe⟩ := update_mem_snd.mp he
    by_cases hst : read b.pin = b.state
    · rw [updateButton_of_eq hst] at hbe
      simp at hbe
    · rw [updateButton_of_ne hst] at hbe
      rcases transitionEvents_flags e hbe with ⟨_, hg⟩ | ⟨hng, _⟩
      · rw [hgh] at hg; cases hg
      · exact hng
  · intro e he hper
    obtain ⟨b, hbmem, hbe⟩ := update_mem_snd.mp he
    by_cases hst : read b.pin = b.state
    · rw [updateButton_of_eq hst] at hbe
      simp at hbe
    · rw [updateButton_of_ne hst] at hbe
      rcases transitionEvents_flags e hbe with ⟨hg, _⟩ | ⟨_, hhh⟩
      · rw [hper] at hg; cases hg
      · refine ⟨b, hbmem, ?_, hhh⟩
        rw [updateButton_events_pin e (by rw [updateButton_of_ne hst]; exact hbe)]
  · intro i b hb
    rw [update_fst_buttons_getElem, hb]
    rfl

/-- Witness for C9: a handler-less record's state is still overwritten by
`update()`. -/
theorem spec_C9_witness :
    ((ButtonHandler.init.registerButton 4).update (fun _ => true)).1.buttons[0]? =
      some ({ Button.mkPlain 4 with state := true } : Button) :=
  (spec_C9 (ButtonHandler.init.registerButton 4) (fun _ => true)).2.2 0
    (Button.mkPlain 4) (by decide)

/-- C6: within a single `update()` call, a single record's contribution to
the trace is one contiguous chunk, and that chunk is all press-side events
or all release-side events — never both a press and a release callback for
the same record, per-button or global. -/
theorem spec_C6 (h : ButtonHandler) (read : Nat → Bool) (i : Nat) (b : Button)
    (hb : h.buttons[i]? = some b) :
    ∃ pre suf, (h.update read).2 =
        pre ++ (updateButton read h.pressHandler h.releaseHandler h.hasHandlers b).2 ++ suf ∧
      ((∀ e ∈ (updateButton read h.pressHandler h.releaseHandler h.hasHandlers b).2,
          Event.isPress e = true) ∨
       (∀ e ∈ (updateButton read h.pressHandler h.releaseHandler h.hasHandlers b).2,
          Event.isPress e = false)) := by
  refine ⟨_, _, update_trace_decomp h read i b hb, ?_⟩
  by_cases hst : read b.pin = b.state
  · left
    intro e he
    rw [updateButton_of_eq hst] at he
    simp at he
  · cases hrv : read b.pin with
    | true =>
      left
      intro e he
      rw [updateButton_of_ne hst] at he
      have := transitionEvents_isPress e he
      rw [hrv] at this
      exact this
    | false =>
      right
      intro e he
      rw [updateButton_of_ne hst] at he
      have := transitionEvents_isPress e he
      rw [hrv] at this
      exact this

/-- Witness for C6 at a concrete one-button manager. -/
theorem spec_C6_witness :
    ∃ pre suf,
      ((ButtonHandler.init.registerButtonWith 5 1 2).update (fun _ => true)).2 =
        pre ++ (updateButton (fun _ => true)
          (ButtonHandler.init.registerButtonWith 5 1 2).pressHandler
          (ButtonHandler.init.registerButtonWith 5 1 2).releaseHandler
          (ButtonHandler.init.registerButtonWith 5 1 2).hasHandlers
          (Button.mkWith 5 1 2)).2 ++ suf ∧
      ((∀ e ∈ (updateButton (fun _ => true)
          (ButtonHandler.init.registerButtonWith 5 1 2).pressHandler
          (ButtonHandler.init.registerButtonWith 5 1 2).releaseHandler
          (ButtonHandler.init.registerButtonWith 5 1 2).hasHandlers
          (Button.mkWith 5 1 2)).2, Event.isPress e = true) ∨
       (∀ e ∈ (updateButton (fun _ => true)
          (ButtonHandler.init.registerButtonWith 5 1 2).pressHandler
          (ButtonHandler.init.registerButtonWith 5 1 2).releaseHandler
          (ButtonHandler.init.registerButtonWith 5 1 2).hasHandlers
          (Button.mkWith 5 1 2)).2, Event.isPress e = false)) :=
  spec_C6 (ButtonHandler.init.registerButtonWith 5 1 2) (fun _ => true) 0
    (Button.mkWith 5 1 2) (by decide)

/-- C1: for a registered record whose stored state differs from the level
read, `update()` emits for that record, contiguously and in order, its
per-button callback (if present) followed by the global callback with the
pin as argument (if present) — `transitionEvents` spells exactly that
list — and afterwards `getState` of that pin returns the level just read.
Instantiated at a false-to-true transition this is the press clause of the
claim, and at true-to-false the release clause. -/
theorem spec_C1 (h : ButtonHandler) (read : Nat → Bool) (i j : Nat) (b : Button)
    (hI : IndexInv h) (hb : h.buttons[i]? = some b)
    (hreg : h.pinMap.lookup b.pin = some j)
    (hchg : b.state ≠ read b.pin) :
    (∃ pre suf, (h.update read).2 =
        pre ++ transitionEvents h.pressHandler h.releaseHandler h.hasHandlers b (read b.pin)
          ++ suf) ∧
    ((h.update read).1.getState b.pin).1 = some (read b.pin) := by
  constructor
  · refine ⟨((h.buttons.take i).map
        (fun c => (updateButton read h.pressHandler h.releaseHandler h.hasHandlers c).2)).flatten,
      ((h.buttons.drop (i + 1)).map
        (fun c => (updateButton read h.pressHandler h.releaseHandler h.hasHandlers c).2)).flatten,
      ?_⟩
    rw [update_trace_decomp h read i b hb, updateButton_of_ne (Ne.symm hchg)]
  · have hreg2 : ((h.update read).1).pinMap.lookup b.pin = some j := by
      rw [update_fst_pinMap]; exact hreg
    rw [getState_of_lookup hreg2]
    obtain ⟨c, hc, hcpin⟩ := indexInv_lookup hI hreg
    rw [update_fst_buttons_getElem, hc]
    simp [hcpin]

/-- Witness for C1: pin 5 with per-button handlers on a manager with global
handlers, going low-to-high. -/
theorem spec_C1_witness :
    ((((ButtonHandler.initWith 8 9).registerButtonWith 5 1 2).update
        (fun _ => true)).1.getState 5).1 = some true :=
  (spec_C1 ((ButtonHandler.initWith 8 9).registerButtonWith 5 1 2) (fun _ => true)
    0 0 (Button.mkWith 5 1 2) (by unfold IndexInv; decide) (by decide) (by decide)
    (by decide)).2

/-- C5: registering a pin that is already registered appends a second record
for it and repoints the index entry to the new position; `getState` then
reads the newest record (freshly `false`), while the earlier record remains
at its old position, is still examined by `update()` (its contribution is a
chunk of the trace), and its own callbacks still fire on a hardware
transition. -/
theorem spec_C5 (h : ButtonHandler) (p j : Nat) (b : Button) (read : Nat → Bool)
    (hreg : h.pinMap.lookup p = some j) (hold : h.buttons[j]? = some b) :
    (h.registerButton p).buttons = h.buttons ++ [Button.mkPlain p] ∧
    (h.registerButton p).pinMap.lookup p = some h.buttons.length ∧
    (h.registerButton p).buttons[h.buttons.length]? = some (Button.mkPlain p) ∧
    (h.registerButton p).buttons[j]? = some b ∧
    ((h.registerButton p).getState p).1 = some false ∧
    (∃ pre suf, ((h.registerButton p).update read).2 =
        pre ++ (updateButton read h.pressHandler h.releaseHandler h.hasHandlers b).2 ++ suf) ∧
    (b.hasHandlers = true → b.state ≠ read b.pin →
      (if read b.pin then Event.perPress b.pin b.pressHandler
       else Event.perRelease b.pin b.releaseHandler) ∈ ((h.registerButton p).update read).2) := by
  have hlk : (h.registerButton p).pinMap.lookup p = some h.buttons.length := by
    show List.lookup p (mapSet h.pinMap p ((h.buttons ++ [Button.mkPlain p]).length - 1))
      = some h.buttons.length
    rw [mapSet_lookup, if_pos rfl]
    simp
  have hjlt : j < h.buttons.length := (List.getElem?_eq_some.mp hold).1
  have hnew : (h.registerButton p).buttons[h.buttons.length]? = some (Button.mkPlain p) := by
    show (h.buttons ++ [Button.mkPlain p])[h.buttons.length]? = _
    rw [List.getElem?_append_right (Nat.le_refl _)]
    simp
  have hkeep : (h.registerButton p).buttons[j]? = some b := by
    show (h.buttons ++ [Button.mkPlain p])[j]? = _
    rw [List.getElem?_append_left hjlt]
    exact hold
  have hdecomp := update_trace_decomp (h.registerButton p) read j b hkeep
  refine ⟨rfl, hlk, hnew, hkeep, ?_, ⟨_, _, hdecomp⟩, ?_⟩
  · rw [getState_of_lookup hlk, hnew]
    rfl
  · intro hH hne
    rw [hdecomp]
    refine List.mem_append.mpr (Or.inl (List.mem_append.mpr (Or.inr ?_)))
    rw [updateButton_of_ne (Ne.symm hne)]
    exact transitionEvents_per_mem hH (read b.pin)

/-- Witness for C5: pin 7 registered with handlers, then registered again;
the orphaned first record still fires its press callback. -/
theorem spec_C5_witness :
    Event.perPress 7 1 ∈
      (((ButtonHandler.init.registerButtonWith 7 1 2).registerButton 7).update
        (fun _ => true)).2 :=
  (spec_C5 (ButtonHandler.init.registerButtonWith 7 1 2) 7 0 (Button.mkWith 7 1 2)
    (fun _ => true) (by decide) (by decide)).2.2.2.2.2.2 rfl (by decide)

/-- C7: for a fixed registration sequence and a fixed sequence of hardware
levels, any two runs of the same sequence of `update()` calls (as
derivations of the run relation) produce the same trace of callback
invocations and the same final manager state. -/
theorem spec_C7 (h0 : ButtonHandler) (ops : List Op) (rs : List (Nat → Bool))
    (h₁ h₂ : ButtonHandler) (e₁ e₂ : List Event)
    (d₁ : RunRel (runOps h0 ops) rs h₁ e₁) (d₂ : RunRel (runOps h0 ops) rs h₂ e₂) :
    e₁ = e₂ ∧ h₁ = h₂ := by
  obtain ⟨hh, he⟩ := runRel_det d₁ d₂
  exact ⟨he, hh⟩

/-- Witness for C7: two identical one-poll runs after registering pin 5. -/
theorem spec_C7_witness :
    ((runOps ButtonHandler.init [Op.regWith 5 1 2]).update (fun _ => true)).2 ++ [] =
      ((runOps ButtonHandler.init [Op.regWith 5 1 2]).update (fun _ => true)).2 ++ [] ∧
    ((runOps ButtonHandler.init [Op.regWith 5 1 2]).update (fun _ => true)).1 =
      ((runOps ButtonHandler.init [Op.regWith 5 1 2]).update (fun _ => true)).1 := by
  have d : RunRel (runOps ButtonHandler.init [Op.regWith 5 1 2]) [fun _ => true]
      ((runOps ButtonHandler.init [Op.regWith 5 1 2]).update (fun _ => true)).1
      (((runOps ButtonHandler.init [Op.regWith 5 1 2]).update (fun _ => true)).2 ++ []) :=
    RunRel.cons _ _ _ _ _ _ _ (updateRel_of_run _ _) (RunRel.nil _)
  exact spec_C7 ButtonHandler.init [Op.regWith 5 1 2] [fun _ => true] _ _ _ _ d d
